import Mathlib

/-!
Verification of the memmod process-memory access library.

This file shallowly embeds the core of the library (`src/lib.rs`,
`src/reader.rs`, `src/writer.rs`) in Lean and proves or refutes the frozen
claims about it.

Modelling conventions:

* The target platform is 64-bit (`usize::BITS = 64`, `POINTER_WIDTH = 8`).
* Target memory is byte-addressed: `Mem := Nat → Option Nat`, where `none`
  models an unmapped byte (a `ptrace` read or write of a word containing an
  unmapped byte fails) and mapped bytes are `some v` with `v < 256`
  (well-formedness is `MemWF`).
* Machine words are `Nat` bit patterns below `2 ^ 64`; the `i64` values of
  the source are represented by their 64-bit two's-complement bit pattern.
* Rust `usize`/`isize` arithmetic that the source performs unchecked is
  modelled with release-build wrap-around semantics, `% 2 ^ 64` (`uadd`,
  `usub`, `isizeAsUsize`).  A debug build would panic at the same places;
  either way no library error value is produced there.
* External effects that are out of scope for the claims are modelled thus:
  sending a signal is recorded in a `Sig` trace (the raw `kill`/`waitpid`
  syscalls are assumed to succeed), and the `/proc/<pid>/maps` scan done by
  `get_base` is abstracted into a `lookup : Option Nat` argument holding the
  base address the scan would currently produce (`none` = scan fails).
  The reader and writer drop the signal traces of the word primitives they
  call, since no claim about them mentions signals.
* Rust panics in code reachable by the claims (out-of-bounds slice
  indexing, `Option::unwrap`, the `Drop` panic of `ProcessWriter`) are
  modelled by `Option`/`none`.
-/

/-- A signal sent to the attached process (`SIGSTOP` or `SIGCONT`). -/
inductive Sig where
  | sigstop : Sig
  | sigcont : Sig
deriving DecidableEq

/-- Byte-addressed memory of the attached process. `none` = unmapped. -/
abbrev Mem := Nat → Option Nat

/-- Mapped bytes hold byte values (`u8` in the source). -/
def MemWF (m : Mem) : Prop := ∀ a v, m a = some v → v < 256

/-- `usize::BITS as usize / 8` on the modelled 64-bit platform
(`src/lib.rs`). -/
def POINTER_WIDTH : Nat := 8

/-- Modulus of `usize` arithmetic on the modelled platform. -/
def USIZE_MOD : Nat := 2 ^ 64

/-- Wrapping `usize` addition (release-build overflow semantics). -/
def uadd (a b : Nat) : Nat := (a + b) % USIZE_MOD

/-- Wrapping `usize` subtraction (release-build overflow semantics). -/
def usub (a b : Nat) : Nat := (a + (USIZE_MOD - b % USIZE_MOD)) % USIZE_MOD

/-- The bit pattern of `o as usize` for `o : isize` (two's complement). -/
def isizeAsUsize (o : Int) : Nat := (o % (USIZE_MOD : Int)).toNat

/-- Read `count` consecutive bytes from memory; fails if any is unmapped. -/
def readBytesMem (m : Mem) : Nat → Nat → Option (List Nat)
  | _, 0 => some []
  | a, n + 1 =>
    match m a, readBytesMem m (a + 1) n with
    | some b, some rest => some (b :: rest)
    | _, _ => none

/-- Little-endian value of a byte list (`usize::from_le_bytes`). -/
def fromLeBytes : List Nat → Nat
  | [] => 0
  | b :: rest => b + 256 * fromLeBytes rest

/-- The word-sized little-endian read primitive (`ptrace::read` on the
modelled 64-bit little-endian platform): the 8 bytes at `a`, packed. -/
def readWordMem (m : Mem) (a : Nat) : Option Nat :=
  (readBytesMem m a 8).map fromLeBytes

/-- The word-sized little-endian write primitive (`ptrace::write`): store
the 8 bytes of `w` at `a`; fails if the word is not mapped. -/
def writeWordMem (m : Mem) (a w : Nat) : Option Mem :=
  match readBytesMem m a 8 with
  | some _ =>
    some (fun x => if a ≤ x ∧ x < a + 8 then some ((w >>> (8 * (x - a))) % 256) else m x)
  | none => none

/-- An attached process (`Process` in `src/lib.rs`). The `pid` and `name`
fields are identifiers with no bearing on the claims and are omitted; the
target's memory is part of the state here because the word primitives act
on it. -/
structure Process where
  stopped : Bool
  base : Option Nat
  mem : Mem

/-- `Process::new` (`src/lib.rs:67`): after a successful attach the process
starts stopped, with no cached base. -/
def Process.new (mem : Mem) : Process :=
  { stopped := true, base := none, mem := mem }

/-- `Process::stop` (`src/lib.rs:182`): if not already stopped, send
`SIGSTOP` (and wait) and set the flag; otherwise do nothing. -/
def Process.stop (p : Process) : Process × List Sig :=
  if !p.stopped then ({ p with stopped := true }, [Sig.sigstop]) else (p, [])

/-- `Process::cont` (`src/lib.rs:195`): if stopped, send `SIGCONT` and clear
the flag; otherwise do nothing. -/
def Process.cont (p : Process) : Process × List Sig :=
  if p.stopped then ({ p with stopped := false }, [Sig.sigcont]) else (p, [])

/-- `Process::read_word` (`src/lib.rs:205`): stop first, then read one word. -/
def Process.read_word (p : Process) (address : Nat) : Option (Process × List Sig × Nat) :=
  match readWordMem (p.stop).1.mem address with
  | some w => some ((p.stop).1, (p.stop).2, w)
  | none => none

/-- `Process::write_word` (`src/lib.rs:223`): stop first, then write one word. -/
def Process.write_word (p : Process) (address data : Nat) : Option (Process × List Sig) :=
  match writeWordMem (p.stop).1.mem address data with
  | some m => some ({ (p.stop).1 with mem := m }, (p.stop).2)
  | none => none

/-- `Process::get_base` (`src/lib.rs:151`): a no-op if `base` is already
cached; otherwise record the result of scanning `/proc/<pid>/maps`, which
is abstracted into `lookup` (see the file header). -/
def Process.get_base (p : Process) (lookup : Option Nat) : Option Process :=
  if p.base.isSome then some p
  else
    match lookup with
    | some b => some { p with base := some b }
    | none => none

/-- `Process::base` (`src/lib.rs:277`): `get_base` then unwrap the cache.
Named `base_addr` because `base` is the field name. -/
def Process.base_addr (p : Process) (lookup : Option Nat) : Option (Process × Nat) :=
  match p.get_base lookup with
  | some p1 =>
    match p1.base with
    | some b => some (p1, b)
    | none => none
  | none => none

/-- The shared effective-address computation of `ProcessReader::offset`,
`ProcessWriter::offset`, `ProcessReader::goto_offset` and
`ProcessWriter::goto_offset` (`src/reader.rs:38`, `src/reader.rs:71`,
`src/writer.rs:36`, `src/writer.rs:69`): `base + offset as usize` when
`offset >= 0`, else `base - offset as usize`, with the unchecked `usize`
arithmetic of a release build (wrap-around). -/
def offsetAddress (base : Nat) (offset : Int) : Nat :=
  if 0 ≤ offset then uadd base (isizeAsUsize offset) else usub base (isizeAsUsize offset)

/-- A sequential read cursor (`ProcessReader` in `src/reader.rs`); the
borrowed `Process` is threaded separately through its operations. -/
structure ProcessReader where
  address : Nat
  length : Nat
  advance : Bool

/-- `ProcessReader::new` (`src/reader.rs:28`). -/
def ProcessReader.new (address length : Nat) : ProcessReader :=
  { address := address, length := length, advance := true }

/-- `ProcessReader::offset` (`src/reader.rs:38`): `proc.base.unwrap()` then
the shared effective-address computation; the unwrap of a missing base is
a panic, modelled as `none`. -/
def ProcessReader.offset (p : Process) (offset : Int) (length : Nat) : Option ProcessReader :=
  match p.base with
  | some base => some { address := offsetAddress base offset, length := length, advance := true }
  | none => none

/-- `ProcessReader::no_advance` (`src/reader.rs:54`). -/
def ProcessReader.no_advance (r : ProcessReader) : ProcessReader :=
  { r with advance := false }

/-- `ProcessReader::goto` (`src/reader.rs:66`). -/
def ProcessReader.goto (r : ProcessReader) (address : Nat) : ProcessReader :=
  { r with address := address }

/-- `ProcessReader::goto_offset` (`src/reader.rs:71`): `self.proc.base()`
(which may trigger the maps scan, abstracted as `lookup`), unwrapped, then
the shared effective-address computation. -/
def ProcessReader.goto_offset (p : Process) (r : ProcessReader) (lookup : Option Nat)
    (offset : Int) : Option (Process × ProcessReader) :=
  match p.base_addr lookup with
  | some (p1, b) => some (p1, { r with address := offsetAddress b offset })
  | none => none

/-- `buf[i] = v` on a mutable byte slice: the out-of-bounds case is a Rust
panic, modelled as `none`. -/
def setAt (buf : List Nat) (i v : Nat) : Option (List Nat) :=
  if i < buf.length then some (buf.set i v) else none

/-- The inner loop of `<ProcessReader as Read>::read` (`src/reader.rs:87`):
`for j in 0..8 { buf[i + j] = ((word >> (j * 8)) & 0xff) as u8 }`.
Structural recursion on the number of remaining iterations (called with
`j = 0` and 8 iterations left). -/
def unpackLoop (word i : Nat) : Nat → Nat → List Nat → Option (List Nat)
  | _, 0, buf => some buf
  | j, n + 1, buf =>
    match setAt buf (i + j) ((word >>> (j * 8)) &&& 0xff) with
    | some buf1 => unpackLoop word i (j + 1) n buf1
    | none => none

/-- The outer loop of `<ProcessReader as Read>::read` (`src/reader.rs:84`):
`for i in (0..length).step_by(8)`, reading a full word per stride and
unpacking it into the buffer.  Structural recursion on a fuel that the
caller makes at least as large as the number of strides. -/
def readStrides (address length : Nat) : Nat → Nat → Process → List Nat →
    Option (Process × List Nat)
  | _, 0, p, buf => some (p, buf)
  | i, fuel + 1, p, buf =>
    if i < length then
      match p.read_word (address + i) with
      | some (p1, _, word) =>
        match unpackLoop word i 0 8 buf with
        | some buf1 => readStrides address length (i + 8) fuel p1 buf1
        | none => none
      | none => none
    else some (p, buf)

/-- `<ProcessReader as Read>::read` (`src/reader.rs:81`): reads
`min(buf.len(), self.length)` bytes in word strides; on success advances
the cursor by that length if `advance` is set and returns the length.
(`length` strides of fuel always suffice, since each stride covers 8
bytes.)  The signal traces of the word reads are not accumulated. -/
def ProcessReader.read (r : ProcessReader) (p : Process) (buf : List Nat) :
    Option (Process × ProcessReader × List Nat × Nat) :=
  match readStrides r.address (min buf.length r.length) 0 (min buf.length r.length) p buf with
  | some (p1, buf1) =>
    some (p1,
      { r with address := if r.advance then r.address + min buf.length r.length else r.address },
      buf1, min buf.length r.length)
  | none => none

/-- A buffered write cursor (`ProcessWriter` in `src/writer.rs`); the
borrowed `Process` is threaded separately through its operations. -/
structure ProcessWriter where
  address : Nat
  data : List Nat
  advance : Bool

/-- `ProcessWriter::new` (`src/writer.rs:26`). -/
def ProcessWriter.new (address : Nat) : ProcessWriter :=
  { address := address, data := [], advance := true }

/-- `ProcessWriter::offset` (`src/writer.rs:36`): `proc.base.unwrap()` then
the shared effective-address computation. -/
def ProcessWriter.offset (p : Process) (offset : Int) : Option ProcessWriter :=
  match p.base with
  | some base => some { address := offsetAddress base offset, data := [], advance := true }
  | none => none

/-- `ProcessWriter::no_advance` (`src/writer.rs:52`). -/
def ProcessWriter.no_advance (w : ProcessWriter) : ProcessWriter :=
  { w with advance := false }

/-- `ProcessWriter::goto_offset` (`src/writer.rs:69`). -/
def ProcessWriter.goto_offset (p : Process) (w : ProcessWriter) (lookup : Option Nat)
    (offset : Int) : Option (Process × ProcessWriter) :=
  match p.base_addr lookup with
  | some (p1, b) => some (p1, { w with address := offsetAddress b offset })
  | none => none

/-- `<ProcessWriter as Write>::write` (`src/writer.rs:79`): append every
byte to the pending buffer, never touching memory; returns the byte count. -/
def ProcessWriter.write (w : ProcessWriter) (buf : List Nat) : ProcessWriter × Nat :=
  ({ w with data := w.data ++ buf }, buf.length)

/-- The per-offset loop of `Process::pointer_chain` (`src/lib.rs:250`):
reposition the reader at the current address, `read_exact` a pointer-sized
byte array, decode it little-endian (`usize::from_le_bytes`), then apply
the signed offset with the source's unchecked arithmetic
(`address += *offset as usize` / `address -= offset.unsigned_abs()`,
wrap-around in a release build).  The reader always has the
`POINTER_WIDTH`-byte window `pointer_chain` built it with, so the single
`read` call fills the whole array and `read_exact` needs no retry; the
array is fully overwritten on every iteration, so passing a fresh zeroed
buffer each time is equivalent to reusing it. -/
def pointer_chainLoop (p : Process) (r : ProcessReader) (address : Nat) :
    List Int → Option (Process × Nat)
  | [] => some (p, address)
  | off :: rest =>
    match (r.goto address).read p (List.replicate POINTER_WIDTH 0) with
    | some (p1, r1, bytes, _) =>
      pointer_chainLoop p1 r1
        (if 0 ≤ off then uadd (fromLeBytes bytes) off.toNat
         else usub (fromLeBytes bytes) off.natAbs) rest
    | none => none

/-- `Process::pointer_chain` (`src/lib.rs:246`):
`self.reader(address, POINTER_WIDTH)?.no_advance()` — where
`Process::reader` (`src/lib.rs:283`) calls `get_base` first — then the
offset loop.  Returns the final address, not its contents. -/
def Process.pointer_chain (p : Process) (lookup : Option Nat) (address : Nat)
    (offsets : List Int) : Option (Process × Nat) :=
  match p.get_base lookup with
  | some p1 =>
    pointer_chainLoop p1 ((ProcessReader.new address POINTER_WIDTH).no_advance) address offsets
  | none => none

/-- The `i64::MAX` bit pattern used by the flush merge mask
(`src/writer.rs:106`). -/
def i64MAX : Nat := 2 ^ 63 - 1

/-- The shadowed inner loop of `<ProcessWriter as Write>::flush`
(`src/writer.rs:101`): `for i in i..self.data.len() { word |= ... }`,
packing the remaining bytes of the trailing chunk into `word`.
Structural recursion on a fuel the caller makes at least `data.len()`. -/
def packRest (data : List Nat) : Nat → Nat → Nat → Nat
  | _, word, 0 => word
  | i, word, fuel + 1 =>
    if h : i < data.length then
      packRest data (i + 1) (word ||| (data.get ⟨i, h⟩ <<< ((i % 8) * 8))) fuel
    else word

/-- The main loop of `<ProcessWriter as Write>::flush` (`src/writer.rs:90`):
byte `i` runs from `0`; each full 8-byte chunk is packed little-endian into
`word` and written at `address + wordi * 8`; on reaching the trailing
chunk (when `data.len() % 8 != 0` and `i / 8 == data.len() / 8`) the
remaining bytes are packed, the existing word is read, masked with
`i64::MAX << (difference * 8)` (with `difference = data.len() - i`),
ORed in and written back, and the loop breaks.  Structural recursion on a
fuel the caller makes at least `data.len()`; the signal traces of the word
primitives are not accumulated. -/
def flushLoop (data : List Nat) (address : Nat) : Process → Nat → Nat → Nat → Nat →
    Option Process
  | p, _, _, _, 0 => some p
  | p, i, word, wordi, fuel + 1 =>
    if h : i < data.length then
      let word1 := if i % 8 = 0 then 0 else word
      let word2 := word1 ||| (data.get ⟨i, h⟩ <<< ((i % 8) * 8))
      if data.length % 8 ≠ 0 ∧ i / 8 = data.length / 8 then
        match p.read_word (address + wordi * 8) with
        | some (p1, _, source) =>
          match p1.write_word (address + wordi * 8)
              ((packRest data (i + 1) word2 data.length) |||
                (source &&& ((i64MAX <<< ((data.length - i) * 8)) % USIZE_MOD))) with
          | some (p2, _) => some p2
          | none => none
        | none => none
      else if (i + 1) % 8 = 0 then
        match p.write_word (address + wordi * 8) word2 with
        | some (p1, _) => flushLoop data address p1 (i + 1) word2 (wordi + 1) fuel
        | none => none
      else flushLoop data address p (i + 1) word2 wordi fuel
    else some p

/-- `<ProcessWriter as Write>::flush` (`src/writer.rs:87`): run the loop
from byte `0`, then advance the cursor by `data.len()` if `advance` is set
and clear the pending buffer. -/
def ProcessWriter.flush (p : Process) (w : ProcessWriter) : Option (Process × ProcessWriter) :=
  match flushLoop w.data w.address p 0 0 0 w.data.length with
  | some p1 =>
    some (p1, { w with
      address := (if w.advance then w.address + w.data.length else w.address),
      data := [] })
  | none => none

/-- `<ProcessWriter as Drop>::drop` (`src/writer.rs:144`): if the pending
buffer is non-empty, flush; a flush failure at this point is a panic
(fatal abort), modelled as `none`. -/
def ProcessWriter.drop (p : Process) (w : ProcessWriter) : Option (Process × ProcessWriter) :=
  if w.data.isEmpty then some (p, w) else ProcessWriter.flush p w

/-- Byte `j` of a word's bit pattern (verification helper): this is exactly
what `writeWordMem` stores at offset `j` of the written word. -/
def byteOf (w j : Nat) : Nat := (w >>> (8 * j)) % 256

/-- Claim C6: once `base` is `Some`, `get_base` is a no-op and no operation
recomputes or changes it: `get_base`/`base()` return the same cached value
under any later (even changed) memory-map contents, and `stop`, `cont`,
`read_word` and `write_word` leave the field untouched. -/
theorem get_base_cached_stable (p : Process) (b : Nat) (l l' : Option Nat)
    (hb : p.base = some b) :
    p.get_base l = some p ∧
    p.base_addr l = some (p, b) ∧
    p.base_addr l' = some (p, b) ∧
    (p.stop).1.base = p.base ∧
    (p.cont).1.base = p.base ∧
    (∀ a p' s v, p.read_word a = some (p', s, v) → p'.base = p.base) ∧
    (∀ a w p' s, p.write_word a w = some (p', s) → p'.base = p.base) := by
  have hsome : p.base.isSome := by rw [hb]; rfl
  have hgb : p.get_base l = some p := by simp [Process.get_base, hsome]
  have hgb' : p.get_base l' = some p := by simp [Process.get_base, hsome]
  refine ⟨hgb, ?_, ?_, ?_, ?_, ?_, ?_⟩
  · simp [Process.base_addr, hgb, hb]
  · simp [Process.base_addr, hgb', hb]
  · unfold Process.stop; split <;> rfl
  · unfold Process.cont; split <;> rfl
  · intro a p' s v h
    unfold Process.read_word at h
    rcases hr : readWordMem (p.stop).1.mem a with _ | w <;> rw [hr] at h
    · exact absurd h (by simp)
    · have hp' : p' = (p.stop).1 := by
        simpa using congrArg (fun o => (o.map Prod.fst).getD p') h.symm
      rw [hp']
      unfold Process.stop; split <;> rfl
  · intro a w p' s h
    unfold Process.write_word at h
    rcases hr : writeWordMem (p.stop).1.mem a w with _ | m <;> rw [hr] at h
    · exact absurd h (by simp)
    · have hp' : p' = { (p.stop).1 with mem := m } := by
        simpa using congrArg (fun o => (o.map Prod.fst).getD p') h.symm
      rw [hp']
      unfold Process.stop; split <;> rfl

/-- Witness for C6 at a concrete process with a cached base. -/
theorem get_base_cached_stable_witness :
    (Process.new (fun _ => some 0)).base = none ∧
    ({ Process.new (fun _ => some 0) with base := some 4096 }).base_addr (some 7777) =
      some ({ Process.new (fun _ => some 0) with base := some 4096 }, 4096) ∧
    ({ Process.new (fun _ => some 0) with base := some 4096 }).base_addr none =
      some ({ Process.new (fun _ => some 0) with base := some 4096 }, 4096) := by
  refine ⟨rfl, ?_, ?_⟩
  · exact (get_base_cached_stable _ 4096 (some 7777) none rfl).2.1
  · exact (get_base_cached_stable _ 4096 none (some 7777) rfl).2.1

/-- Claim C7: `stop` twice leaves `stopped = true` and the second call is a
no-op issuing no signal (so at most one pause signal is issued in total:
exactly one from a running state, none from a stopped one); `cont` on a
never-stopped process issues no signal and leaves `stopped = false`. -/
theorem stop_cont_idempotent (p : Process) :
    (((p.stop).1.stop).1.stopped = true) ∧
    ((p.stop).1.stop).2 = [] ∧
    (p.stopped = false → (p.stop).2 = [Sig.sigstop]) ∧
    (p.stopped = true → (p.stop).2 = []) ∧
    (p.stopped = false → (p.cont).1.stopped = false ∧ (p.cont).2 = []) := by
  rcases hp : p.stopped <;>
    simp [Process.stop, Process.cont, hp]

/-- Witness for C7 at a concrete running process. -/
theorem stop_cont_idempotent_witness :
    ((({ Process.new (fun _ => none) with stopped := false }).stop).1.stop).1.stopped = true ∧
    (({ Process.new (fun _ => none) with stopped := false }).stop).2 = [Sig.sigstop] ∧
    (({ Process.new (fun _ => none) with stopped := false }).cont).2 = [] := by
  refine ⟨(stop_cont_idempotent _).1, ?_, ?_⟩
  · exact (stop_cont_idempotent { Process.new (fun _ => none) with stopped := false }).2.2.1 rfl
  · exact ((stop_cont_idempotent { Process.new (fun _ => none) with stopped := false }).2.2.2.2 rfl).2

/-- Claim C8: a successful `write_word` leaves the target stopped, issued a
pause signal exactly if the target was running, and never issues a resume
signal. -/
theorem write_word_stops_no_resume (p : Process) (a w : Nat) (p' : Process) (s : List Sig)
    (h : p.write_word a w = some (p', s)) :
    p'.stopped = true ∧
    (p.stopped = false → s = [Sig.sigstop]) ∧
    (p.stopped = true → s = []) ∧
    Sig.sigcont ∉ s := by
  unfold Process.write_word at h
  rcases hr : writeWordMem (p.stop).1.mem a w with _ | m <;> rw [hr] at h
  · exact absurd h (by simp)
  · have hp' : p' = { (p.stop).1 with mem := m } := by
      simpa using congrArg (fun o => (o.map Prod.fst).getD p') h.symm
    have hs : s = (p.stop).2 := by
      simpa using congrArg (fun o => (o.map Prod.snd).getD s) h.symm
    rcases hst : p.stopped <;>
      simp [hp', hs, Process.stop, hst]

/-- Witness for C8: a concrete running process with mapped memory. -/
theorem write_word_stops_no_resume_witness :
    (({ Process.new (fun a => if a < 16 then some 0 else none) with stopped := false
      }).write_word 0 81985529216486895).isSome = true ∧
    (∀ p' s,
      ({ Process.new (fun a => if a < 16 then some 0 else none) with stopped := false
        }).write_word 0 81985529216486895 = some (p', s) →
      p'.stopped = true ∧ s = [Sig.sigstop]) := by
  constructor
  · rfl
  · intro p' s h
    refine ⟨(write_word_stops_no_resume _ 0 81985529216486895 p' s h).1, ?_⟩
    exact (write_word_stops_no_resume _ 0 81985529216486895 p' s h).2.1 rfl

/-- Claim C10: a fresh attach starts stopped, and a successful `read_word`
(or `write_word`) stops the target first and leaves it stopped; none of
them ever issues a resume signal, so the target stays paused until `cont`
is called. -/
theorem new_and_read_word_leave_stopped (m : Mem) (p : Process) (a : Nat) :
    (Process.new m).stopped = true ∧
    (∀ p' s v, p.read_word a = some (p', s, v) →
      p'.stopped = true ∧ (p.stopped = false → s = [Sig.sigstop]) ∧ Sig.sigcont ∉ s) ∧
    (∀ w p' s, p.write_word a w = some (p', s) → p'.stopped = true) := by
  refine ⟨rfl, ?_, ?_⟩
  · intro p' s v h
    unfold Process.read_word at h
    rcases hr : readWordMem (p.stop).1.mem a with _ | w <;> rw [hr] at h
    · exact absurd h (by simp)
    · have hp' : p' = (p.stop).1 := by
        simpa using congrArg (fun o => (o.map Prod.fst).getD p') h.symm
      have hs : s = (p.stop).2 := by
        simpa using congrArg (fun o => (o.map (fun q => q.2.1)).getD s) h.symm
      rcases hst : p.stopped <;>
        simp [hp', hs, Process.stop, hst]
  · intro w p' s h
    exact (write_word_stops_no_resume p a w p' s h).1

/-- Witness for C10 at a concrete process and address. -/
theorem new_and_read_word_leave_stopped_witness :
    (Process.new (fun _ => some 3)).stopped = true ∧
    (∀ p' s v,
      ({ Process.new (fun _ => some 3) with stopped := false }).read_word 40 = some (p', s, v) →
      p'.stopped = true ∧ s = [Sig.sigstop]) ∧
    (({ Process.new (fun _ => some 3) with stopped := false }).read_word 40).isSome = true := by
  refine ⟨(new_and_read_word_leave_stopped (fun _ => some 3)
    { Process.new (fun _ => some 3) with stopped := false } 40).1, ?_, rfl⟩
  intro p' s v h
  have := (new_and_read_word_leave_stopped (fun _ => some 3)
    { Process.new (fun _ => some 3) with stopped := false } 40).2.1 p' s v h
  exact ⟨this.1, this.2.1 rfl⟩

/-- Claim C3 fails on the code: the final stride of
`<ProcessReader as Read>::read` always writes all 8 unpacked bytes
(`for j in 0..8 { buf[i + j] = ... }`, `src/reader.rs:87`), so when
`min(buf.len(), self.length)` is not a multiple of the word size the read
indexes the buffer out of bounds and panics instead of copying only the
needed leading bytes.  Concretely: a 3-byte buffer with an 8-byte window
over fully mapped memory — the word read itself succeeds, and the read
nevertheless aborts (modelled as `none`) at `buf[3]`. -/
theorem reader_read_final_stride_out_of_bounds :
    readWordMem (fun a => if a < 8 then some 0 else none) 0 = some 0 ∧
    ProcessReader.read (ProcessReader.new 0 8)
      (Process.new (fun a => if a < 8 then some 0 else none)) [0, 0, 0] = none :=
  ⟨rfl, rfl⟩

/-- Claim C4 fails on the code: for a negative offset the accessors compute
`base - offset as usize` (`src/reader.rs:43`, `src/writer.rs:42`,
`src/reader.rs:75`), i.e. they subtract the two's-complement bit pattern of
the offset, not its magnitude.  With release-build wrap-around this ADDS
the magnitude: at base `0x1000` and offset `-16` all three accessors yield
`0x1010` (`4112`), not the claimed `0x1000 - 16 = 0xFF0` (`4080`).
(A debug build would panic on the same inputs; `Process::pointer_chain`
shows the intended `unsigned_abs` pattern at `src/lib.rs:258`.) -/
theorem offset_accessors_negative_offset_adds :
    (ProcessReader.offset { Process.new (fun _ => none) with base := some 4096 } (-16) 8).map
      (fun r => r.address) = some 4112 ∧
    (ProcessWriter.offset { Process.new (fun _ => none) with base := some 4096 } (-16)).map
      (fun w => w.address) = some 4112 ∧
    (ProcessReader.goto_offset { Process.new (fun _ => none) with base := some 4096 }
      (ProcessReader.new 0 8) none (-16)).map (fun q => q.2.address) = some 4112 :=
  ⟨rfl, rfl, rfl⟩

theorem stop_mem (p : Process) : (p.stop).1.mem = p.mem := by
  unfold Process.stop; split <;> rfl

theorem readBytesMem_spec (m : Mem) :
    ∀ n a bs, readBytesMem m a n = some bs →
      bs.length = n ∧ ∀ j, j < n → m (a + j) = some (bs.getD j 0) := by
  intro n
  induction n with
  | zero =>
    intro a bs h
    have hbs : bs = [] := by
      simpa [readBytesMem] using h.symm
    subst hbs
    exact ⟨rfl, fun j hj => absurd hj (by omega)⟩
  | succ n ih =>
    intro a bs h
    unfold readBytesMem at h
    rcases hma : m a with _ | b <;> rw [hma] at h
    · exact absurd h (by simp)
    · rcases hrec : readBytesMem m (a + 1) n with _ | rest <;> rw [hrec] at h
      · exact absurd h (by simp)
      · have hbs : bs = b :: rest := by simpa using h.symm
        subst hbs
        obtain ⟨hlen, hmem⟩ := ih (a + 1) rest hrec
        refine ⟨by simp [hlen], ?_⟩
        intro j hj
        cases j with
        | zero => simpa using hma
        | succ j =>
          have := hmem j (by omega)
          have harith : a + 1 + j = a + (j + 1) := by omega
          rw [harith] at this
          simpa using this

theorem readBytesMem_wf (m : Mem) (hwf : MemWF m) :
    ∀ n a bs, readBytesMem m a n = some bs → ∀ b ∈ bs, b < 256 := by
  intro n
  induction n with
  | zero =>
    intro a bs h
    have hbs : bs = [] := by simpa [readBytesMem] using h.symm
    subst hbs
    simp
  | succ n ih =>
    intro a bs h
    unfold readBytesMem at h
    rcases hma : m a with _ | b <;> rw [hma] at h
    · exact absurd h (by simp)
    · rcases hrec : readBytesMem m (a + 1) n with _ | rest <;> rw [hrec] at h
      · exact absurd h (by simp)
      · have hbs : bs = b :: rest := by simpa using h.symm
        subst hbs
        intro c hc
        rcases List.mem_cons.mp hc with hc | hc
        · subst hc; exact hwf a c hma
        · exact ih (a + 1) rest hrec c hc

theorem fromLeBytes_lt : ∀ bs : List Nat, (∀ b ∈ bs, b < 256) →
    fromLeBytes bs < 256 ^ bs.length := by
  intro bs
  induction bs with
  | nil => intro _; simp [fromLeBytes]
  | cons b rest ih =>
    intro hwf
    have hb : b < 256 := hwf b (by simp)
    have hr : fromLeBytes rest < 256 ^ rest.length :=
      ih (fun c hc => hwf c (by simp [hc]))
    have : b + 256 * fromLeBytes rest < 256 * (fromLeBytes rest + 1) := by omega
    calc fromLeBytes (b :: rest) = b + 256 * fromLeBytes rest := rfl
      _ < 256 * (fromLeBytes rest + 1) := this
      _ ≤ 256 * 256 ^ rest.length := by
          have : fromLeBytes rest + 1 ≤ 256 ^ rest.length := hr
          exact Nat.mul_le_mul_left 256 this
      _ = 256 ^ (b :: rest).length := by rw [List.length_cons, pow_succ, Nat.mul_comm]

theorem readWordMem_lt (m : Mem) (hwf : MemWF m) (a w : Nat)
    (h : readWordMem m a = some w) : w < 2 ^ 64 := by
  unfold readWordMem at h
  rcases hb : readBytesMem m a 8 with _ | bs <;> rw [hb] at h
  · exact absurd h (by simp)
  · have hw : w = fromLeBytes bs := by simpa using h.symm
    have hlen := (readBytesMem_spec m 8 a bs hb).1
    have := fromLeBytes_lt bs (readBytesMem_wf m hwf 8 a bs hb)
    rw [hlen] at this
    rw [hw]
    calc fromLeBytes bs < 256 ^ 8 := this
      _ = 2 ^ 64 := by norm_num

theorem unpack8 (word b0 b1 b2 b3 b4 b5 b6 b7 : Nat) :
    unpackLoop word 0 0 8 [b0, b1, b2, b3, b4, b5, b6, b7] =
      some [word &&& 255, (word >>> 8) &&& 255, (word >>> 16) &&& 255,
        (word >>> 24) &&& 255, (word >>> 32) &&& 255, (word >>> 40) &&& 255,
        (word >>> 48) &&& 255, (word >>> 56) &&& 255] := rfl

theorem land255_eq_mod (x : Nat) : x &&& 255 = x % 256 := by
  have h := Nat.and_pow_two_sub_one_eq_mod x 8
  norm_num at h
  exact h

theorem fromLe_unpack (w : Nat) (hw : w < 2 ^ 64) :
    fromLeBytes [w &&& 255, (w >>> 8) &&& 255, (w >>> 16) &&& 255,
      (w >>> 24) &&& 255, (w >>> 32) &&& 255, (w >>> 40) &&& 255,
      (w >>> 48) &&& 255, (w >>> 56) &&& 255] = w := by
  simp only [fromLeBytes, land255_eq_mod, Nat.shiftRight_eq_div_pow]
  norm_num
  omega

theorem reader_read_word8 (p : Process) (A : Nat) (adv : Bool) (w : Nat)
    (hw : readWordMem p.mem A = some w) :
    ∃ bytes, ProcessReader.read ⟨A, 8, adv⟩ p (List.replicate 8 0) =
        some ((p.stop).1, ⟨if adv then A + 8 else A, 8, adv⟩, bytes, 8) ∧
      (w < 2 ^ 64 → fromLeBytes bytes = w) := by
  have hw' : readWordMem (p.stop).1.mem (A + 0) = some w := by
    rw [stop_mem]; simpa using hw
  refine ⟨[w &&& 255, (w >>> 8) &&& 255, (w >>> 16) &&& 255, (w >>> 24) &&& 255,
    (w >>> 32) &&& 255, (w >>> 40) &&& 255, (w >>> 48) &&& 255, (w >>> 56) &&& 255],
    ?_, fun hlt => fromLe_unpack w hlt⟩
  have hmin : min (List.replicate (8 : Nat) (0 : Nat)).length 8 = 8 := by simp
  have hstr : readStrides A 8 0 8 p (List.replicate 8 0) =
      some ((p.stop).1, [w &&& 255, (w >>> 8) &&& 255, (w >>> 16) &&& 255,
        (w >>> 24) &&& 255, (w >>> 32) &&& 255, (w >>> 40) &&& 255,
        (w >>> 48) &&& 255, (w >>> 56) &&& 255]) := by
    show (if 0 < 8 then
        match Process.read_word p (A + 0) with
        | some (p1, _, word) =>
          match unpackLoop word 0 0 8 (List.replicate 8 0) with
          | some buf1 => readStrides A 8 (0 + 8) 7 p1 buf1
          | none => none
        | none => none
      else some (p, List.replicate 8 0)) = _
    rw [if_pos (by omega)]
    show (match (match readWordMem (p.stop).1.mem (A + 0) with
        | some w => some ((p.stop).1, (p.stop).2, w)
        | none => none : Option (Process × List Sig × Nat)) with
      | some (p1, _, word) =>
        match unpackLoop word 0 0 8 (List.replicate 8 0) with
        | some buf1 => readStrides A 8 (0 + 8) 7 p1 buf1
        | none => none
      | none => none) = _
    rw [hw']
    show (match unpackLoop w 0 0 8 (List.replicate 8 0) with
      | some buf1 => readStrides A 8 (0 + 8) 7 (p.stop).1 buf1
      | none => none) = _
    rw [show (List.replicate (8 : Nat) (0 : Nat)) = [0, 0, 0, 0, 0, 0, 0, 0] from rfl,
      unpack8]
    rfl
  unfold ProcessReader.read
  rw [hmin, hstr]

/-- Claim C5: with the base available and the word at `A` readable,
`pointer_chain(A, [])` returns `A` unchanged, and `pointer_chain(A, [0])`
returns the pointer-sized little-endian value `w` stored at `A`,
reinterpreted as an address and unchanged by the zero offset — the chain
returns the final address, not its contents. -/
theorem pointer_chain_nil_zero (p : Process) (lookup : Option Nat) (A w : Nat)
    (hb : p.base.isSome) (hwf : MemWF p.mem) (hr : readWordMem p.mem A = some w) :
    p.pointer_chain lookup A [] = some (p, A) ∧
    p.pointer_chain lookup A [0] = some ((p.stop).1, w) := by
  have hgb : p.get_base lookup = some p := by simp [Process.get_base, hb]
  have hwlt : w < 2 ^ 64 := readWordMem_lt p.mem hwf A w hr
  constructor
  · simp [Process.pointer_chain, hgb, pointer_chainLoop]
  · obtain ⟨bytes, hread, hfl⟩ := reader_read_word8 p A false w hr
    simp only [Process.pointer_chain, hgb]
    show pointer_chainLoop p ((ProcessReader.new A POINTER_WIDTH).no_advance) A [0] = _
    have hgoto : ((ProcessReader.new A POINTER_WIDTH).no_advance).goto A =
        (⟨A, 8, false⟩ : ProcessReader) := rfl
    show (match ((ProcessReader.new A POINTER_WIDTH).no_advance).goto A
        |>.read p (List.replicate POINTER_WIDTH 0) with
      | some (p1, r1, bytes, _) =>
        pointer_chainLoop p1 r1
          (if 0 ≤ (0 : Int) then uadd (fromLeBytes bytes) (Int.toNat 0)
           else usub (fromLeBytes bytes) (Int.natAbs 0)) []
      | none => none) = _
    rw [hgoto, show List.replicate POINTER_WIDTH (0 : Nat) = List.replicate 8 0 from rfl,
      hread]
    show pointer_chainLoop (p.stop).1 ⟨A, 8, false⟩
      (if 0 ≤ (0 : Int) then uadd (fromLeBytes bytes) (Int.toNat 0)
       else usub (fromLeBytes bytes) (Int.natAbs 0)) [] = _
    rw [if_pos (by omega), hfl hwlt]
    show some ((p.stop).1, uadd w (Int.toNat 0)) = _
    rw [show uadd w (Int.toNat 0) = w % USIZE_MOD from by simp [uadd],
      show w % USIZE_MOD = w from Nat.mod_eq_of_lt hwlt]

/-- Witness for C5 at a concrete process: base cached, word `7` at `0`. -/
theorem pointer_chain_nil_zero_witness :
    Process.pointer_chain
        { Process.new (fun a => if a = 0 then some 7 else if a < 8 then some 0 else none)
          with base := some 4096 } none 0 [] =
      some ({ Process.new (fun a => if a = 0 then some 7 else if a < 8 then some 0 else none)
          with base := some 4096 }, 0) ∧
    Process.pointer_chain
        { Process.new (fun a => if a = 0 then some 7 else if a < 8 then some 0 else none)
          with base := some 4096 } none 0 [0] =
      some ({ Process.new (fun a => if a = 0 then some 7 else if a < 8 then some 0 else none)
          with base := some 4096 }, 7) := by
  have hwf : MemWF (fun a => if a = 0 then some (7 : Nat) else if a < 8 then some 0 else none) := by
    intro a v hv
    by_cases h1 : a = 0 <;> by_cases h2 : a < 8 <;> simp [h1, h2] at hv <;> omega
  have h := pointer_chain_nil_zero
    { Process.new (fun a => if a = 0 then some 7 else if a < 8 then some 0 else none)
      with base := some 4096 } none 0 7 rfl hwf rfl
  exact ⟨h.1, h.2⟩

/-- Claim C2 amended: when the next offset is negative and its magnitude
exceeds the current resolved address, `pointer_chain` does NOT fail — the
source performs the unchecked subtraction `address -= offset.unsigned_abs()`
(`src/lib.rs:258`), which wraps modulo `2 ^ 64` in a release build (a debug
build would panic); the chain returns `Ok` with the wrapped address
`2 ^ 64 - (|offset| - w)`.  No `AddressUnderflow` error exists in the code. -/
theorem pointer_chain_neg_offset_wraps (p : Process) (lookup : Option Nat) (A w : Nat)
    (off : Int) (hb : p.base.isSome) (hwf : MemWF p.mem)
    (hr : readWordMem p.mem A = some w) (hneg : off < 0) (hmag : w < off.natAbs)
    (hisize : off.natAbs ≤ USIZE_MOD) :
    p.pointer_chain lookup A [off] = some ((p.stop).1, usub w off.natAbs) ∧
    usub w off.natAbs = USIZE_MOD - (off.natAbs - w) := by
  have hgb : p.get_base lookup = some p := by simp [Process.get_base, hb]
  have hwlt : w < 2 ^ 64 := readWordMem_lt p.mem hwf A w hr
  constructor
  · obtain ⟨bytes, hread, hfl⟩ := reader_read_word8 p A false w hr
    simp only [Process.pointer_chain, hgb]
    show (match ((ProcessReader.new A POINTER_WIDTH).no_advance).goto A
        |>.read p (List.replicate POINTER_WIDTH 0) with
      | some (p1, r1, bytes, _) =>
        pointer_chainLoop p1 r1
          (if 0 ≤ off then uadd (fromLeBytes bytes) off.toNat
           else usub (fromLeBytes bytes) off.natAbs) []
      | none => none) = _
    rw [show ((ProcessReader.new A POINTER_WIDTH).no_advance).goto A =
        (⟨A, 8, false⟩ : ProcessReader) from rfl,
      show List.replicate POINTER_WIDTH (0 : Nat) = List.replicate 8 0 from rfl, hread]
    show pointer_chainLoop (p.stop).1 ⟨A, 8, false⟩
      (if 0 ≤ off then uadd (fromLeBytes bytes) off.toNat
       else usub (fromLeBytes bytes) off.natAbs) [] = _
    rw [if_neg (by omega), hfl hwlt]
    rfl
  · have h64 : USIZE_MOD = 2 ^ 64 := rfl
    unfold usub
    rw [h64] at hisize ⊢
    rcases Nat.lt_or_ge off.natAbs (2 ^ 64) with hlt | hge
    · rw [Nat.mod_eq_of_lt hlt]
      rw [Nat.mod_eq_of_lt (by omega)]
      omega
    · have heq : off.natAbs = 2 ^ 64 := by omega
      rw [heq]
      simp
      omega

/-- Witness for C2's amended claim: reading the value `5` at address `16`
and applying offset `-7` wraps to `2 ^ 64 - 2`. -/
theorem pointer_chain_neg_offset_wraps_witness :
    Process.pointer_chain
        { Process.new (fun a => if a = 16 then some 5 else if a < 24 then some 0 else none)
          with base := some 4096 } none 16 [-7] =
      some ({ Process.new (fun a => if a = 16 then some 5 else if a < 24 then some 0 else none)
          with base := some 4096 }, 18446744073709551614) := by
  have hwf : MemWF (fun a => if a = 16 then some (5 : Nat) else if a < 24 then some 0 else none) := by
    intro a v hv
    by_cases h1 : a = 16 <;> by_cases h2 : a < 24 <;> simp [h1, h2] at hv <;> omega
  have h := pointer_chain_neg_offset_wraps
    { Process.new (fun a => if a = 16 then some 5 else if a < 24 then some 0 else none)
      with base := some 4096 } none 16 5 (-7) rfl hwf rfl (by decide) (by decide)
    (by unfold USIZE_MOD; norm_num)
  have h2 : usub 5 (Int.natAbs (-7)) = 18446744073709551614 := by
    rw [h.2]; unfold USIZE_MOD; norm_num
  rw [← h2]
  exact h.1

/-- Counterexample to Claim C2 as stated: at a concrete instance where the
negative offset's magnitude (`1`) exceeds the current resolved address
(the word `0` stored at address `0`), `pointer_chain` does not fail with
any error — it succeeds, returning the wrapped address `2 ^ 64 - 1`. -/
theorem pointer_chain_underflow_counterexample :
    Process.pointer_chain
        { Process.new (fun a => if a < 8 then some 0 else none) with base := some 4096 }
        none 0 [-1] =
      some ({ Process.new (fun a => if a < 8 then some 0 else none) with base := some 4096 },
        18446744073709551615) := rfl

/-- Claim C9: the automatic release of a `ProcessWriter` flushes any
non-empty pending buffer (so the pending buffer is empty whenever the
writer is released), and a flush failure during this automatic release is
fatal — the release aborts (the source panics, modelled `none`) rather
than silently discarding the error. -/
theorem writer_drop_flushes_or_fatal (p : Process) (w : ProcessWriter) :
    (w.data ≠ [] → ProcessWriter.drop p w = ProcessWriter.flush p w) ∧
    (∀ p' w', ProcessWriter.drop p w = some (p', w') → w'.data = []) ∧
    (w.data ≠ [] → ProcessWriter.flush p w = none → ProcessWriter.drop p w = none) := by
  have hdrop : ∀ h : w.data ≠ [], ProcessWriter.drop p w = ProcessWriter.flush p w := by
    intro h
    unfold ProcessWriter.drop
    rw [if_neg (by simpa [List.isEmpty_iff] using h)]
  refine ⟨hdrop, ?_, fun h hf => by rw [hdrop h, hf]⟩
  intro p' w' h
  rcases hd : w.data with _ | ⟨b, rest⟩
  · unfold ProcessWriter.drop at h
    rw [if_pos (by simp [hd])] at h
    have hw' : w' = w := by simpa using congrArg (fun o => (o.map Prod.snd).getD w') h.symm
    rw [hw', hd]
  · rw [hdrop (by rw [hd]; simp)] at h
    unfold ProcessWriter.flush at h
    rcases hl : flushLoop w.data w.address p 0 0 0 w.data.length with _ | p1 <;> rw [hl] at h
    · exact absurd h (by simp)
    · have hw' : w' = { w with
          address := (if w.advance then w.address + w.data.length else w.address),
          data := [] } := by
        simpa using congrArg (fun o => (o.map Prod.snd).getD w') h.symm
      rw [hw']

/-- Witness for C9: a non-empty writer over unmapped memory aborts on
release; an empty writer releases with an empty pending buffer. -/
theorem writer_drop_flushes_or_fatal_witness :
    ProcessWriter.drop (Process.new (fun _ => none))
      { address := 0, data := [1, 2, 3], advance := true } = none ∧
    (ProcessWriter.new 5).data = [] := by
  constructor
  · exact (writer_drop_flushes_or_fatal (Process.new (fun _ => none))
      { address := 0, data := [1, 2, 3], advance := true }).2.2 (by simp) rfl
  · exact (writer_drop_flushes_or_fatal (Process.new (fun _ => none))
      (ProcessWriter.new 5)).2.1 (Process.new (fun _ => none)) (ProcessWriter.new 5) rfl

theorem testBit_byteOf (w j t : Nat) :
    (byteOf w j).testBit t = (decide (t < 8) && w.testBit (8 * j + t)) := by
  unfold byteOf
  rw [show (256 : Nat) = 2 ^ 8 from rfl, Nat.testBit_mod_two_pow, Nat.testBit_shiftRight]

theorem byteOf_lor (x y j : Nat) : byteOf (x ||| y) j = byteOf x j ||| byteOf y j := by
  apply Nat.eq_of_testBit_eq
  intro t
  rw [Nat.testBit_lor, testBit_byteOf, testBit_byteOf, testBit_byteOf, Nat.testBit_lor]
  rcases Nat.decLt t 8 with h | h <;> simp [h]

theorem byteOf_land (x y j : Nat) : byteOf (x &&& y) j = byteOf x j &&& byteOf y j := by
  apply Nat.eq_of_testBit_eq
  intro t
  rw [Nat.testBit_land, testBit_byteOf, testBit_byteOf, testBit_byteOf, Nat.testBit_land]
  rcases Nat.decLt t 8 with h | h <;> simp [h]

theorem byteOf_zero (j : Nat) : byteOf 0 j = 0 := by
  unfold byteOf
  simp

theorem byteOf_lt (w j : Nat) : byteOf w j < 256 := by
  unfold byteOf
  omega

theorem testBit_byte_high (b k : Nat) (hb : b < 256) (hk : 8 ≤ k) : b.testBit k = false := by
  apply Nat.testBit_eq_false_of_lt
  calc b < 256 := hb
    _ = 2 ^ 8 := rfl
    _ ≤ 2 ^ k := Nat.pow_le_pow_right (by omega) hk

theorem byteOf_byte_shift (b j r : Nat) (hb : b < 256) :
    byteOf (b <<< (r * 8)) j = if j = r then b else 0 := by
  apply Nat.eq_of_testBit_eq
  intro t
  rw [testBit_byteOf, Nat.testBit_shiftLeft]
  by_cases ht : t < 8
  · by_cases hjr : j = r
    · subst hjr
      rw [if_pos rfl]
      have hge : 8 * j + t ≥ j * 8 := by omega
      rw [show 8 * j + t - j * 8 = t from by omega]
      simp [ht, hge]
    · rw [if_neg hjr]
      rcases Nat.lt_or_ge j r with hlt | hge
      · have hno : ¬ (8 * j + t ≥ r * 8) := by omega
        simp [hno, Nat.zero_testBit]
      · have hr : j > r := by omega
        have hge8 : 8 * j + t ≥ r * 8 := by omega
        have hhi : b.testBit (8 * j + t - r * 8) = false :=
          testBit_byte_high b _ hb (by omega)
        simp [hge8, hhi, Nat.zero_testBit]
  · have ht8 : 8 ≤ t := by omega
    by_cases hjr : j = r
    · subst hjr
      rw [if_pos rfl]
      simp [ht, testBit_byte_high b t hb ht8]
    · rw [if_neg hjr]
      simp [ht, Nat.zero_testBit]

theorem byteOf_flush_mask (d j : Nat) (hd1 : 1 ≤ d) (hd : d < 8) (hj : j < 8) :
    byteOf ((i64MAX <<< (d * 8)) % USIZE_MOD) j = if j < d then 0 else 255 := by
  apply Nat.eq_of_testBit_eq
  intro t
  rw [testBit_byteOf, show USIZE_MOD = 2 ^ 64 from rfl, Nat.testBit_mod_two_pow,
    Nat.testBit_shiftLeft, show i64MAX = 2 ^ 63 - 1 from rfl, Nat.testBit_two_pow_sub_one]
  by_cases ht : t < 8
  · by_cases hjd : j < d
    · have hno : ¬ (8 * j + t ≥ d * 8) := by omega
      simp [ht, hno, hjd, Nat.zero_testBit]
    · have h1 : 8 * j + t < 64 := by omega
      have h2 : 8 * j + t ≥ d * 8 := by omega
      have h3 : 8 * j + t - d * 8 < 63 := by omega
      rw [if_neg hjd]
      have h255 : (255 : Nat).testBit t = true := by
        rw [show (255 : Nat) = 2 ^ 8 - 1 from rfl, Nat.testBit_two_pow_sub_one]
        simpa using ht
      simp [ht, h1, h2, h3, h255]
  · have hrhs : (if j < d then (0 : Nat) else 255).testBit t = false := by
      by_cases hjd : j < d <;>
        simp [hjd, Nat.zero_testBit, testBit_byte_high 255 t (by omega) (by omega)]
    simp [ht, hrhs]

theorem byteOf_byte (b j : Nat) (hb : b < 256) : byteOf b j = if j = 0 then b else 0 := by
  have h := byteOf_byte_shift b j 0 hb
  simpa using h

theorem land255_self (x : Nat) (hx : x < 256) : x &&& 255 = x := by
  rw [land255_eq_mod]
  omega

theorem byteOf_fromLeBytes : ∀ (bs : List Nat), (∀ b ∈ bs, b < 256) → ∀ j, j < bs.length →
    byteOf (fromLeBytes bs) j = bs.getD j 0 := by
  intro bs
  induction bs with
  | nil => intro _ j hj; simp at hj
  | cons b rest ih =>
    intro hwf j hj
    have hb : b < 256 := hwf b (by simp)
    cases j with
    | zero =>
      unfold byteOf
      rw [show 8 * 0 = 0 from rfl, Nat.shiftRight_zero]
      show (b + 256 * fromLeBytes rest) % 256 = (b :: rest).getD 0 0
      rw [List.getD_cons_zero]
      omega
    | succ j =>
      have ihj := ih (fun c hc => hwf c (by simp [hc])) j (by simpa using hj)
      unfold byteOf at ihj ⊢
      rw [Nat.shiftRight_eq_div_pow] at ihj ⊢
      have hpow : (2 : Nat) ^ (8 * (j + 1)) = 256 * 2 ^ (8 * j) := by
        rw [show 8 * (j + 1) = 8 + 8 * j from by omega, pow_add]
        norm_num
      have hstep : fromLeBytes (b :: rest) / 2 ^ (8 * (j + 1)) =
          fromLeBytes rest / 2 ^ (8 * j) := by
        show (b + 256 * fromLeBytes rest) / 2 ^ (8 * (j + 1)) = _
        rw [hpow, ← Nat.div_div_eq_div_mul, Nat.add_mul_div_left b (fromLeBytes rest) (by omega),
          Nat.div_eq_of_lt hb, Nat.zero_add]
      rw [hstep, ihj, List.getD_cons_succ]

theorem write_word_mem (p : Process) (a w : Nat) (p' : Process) (s : List Sig)
    (h : p.write_word a w = some (p', s)) :
    ∀ x, p'.mem x = if a ≤ x ∧ x < a + 8 then some (byteOf w (x - a)) else p.mem x := by
  unfold Process.write_word at h
  rcases hw : writeWordMem (p.stop).1.mem a w with _ | m <;> rw [hw] at h
  · exact absurd h (by simp)
  · have hp' : p' = { (p.stop).1 with mem := m } := by
      simpa using congrArg (fun o => (o.map Prod.fst).getD p') h.symm
    unfold writeWordMem at hw
    rcases hrb : readBytesMem (p.stop).1.mem a 8 with _ | bs <;> rw [hrb] at hw
    · exact absurd hw (by simp)
    · have hm : m = fun x =>
          if a ≤ x ∧ x < a + 8 then some ((w >>> (8 * (x - a))) % 256)
          else (p.stop).1.mem x := by
        simpa using hw.symm
      intro x
      rw [hp']
      show m x = _
      rw [hm, stop_mem]
      exact rfl

theorem write_word_wf (p : Process) (a w : Nat) (p' : Process) (s : List Sig)
    (hwf : MemWF p.mem) (h : p.write_word a w = some (p', s)) : MemWF p'.mem := by
  intro x v hv
  rw [write_word_mem p a w p' s h x] at hv
  by_cases hx : a ≤ x ∧ x < a + 8
  · rw [if_pos hx] at hv
    have hveq : v = byteOf w (x - a) := by simpa using hv.symm
    rw [hveq]
    exact byteOf_lt w (x - a)
  · rw [if_neg hx] at hv
    exact hwf x v hv

theorem read_word_char (p : Process) (a : Nat) (p' : Process) (s : List Sig) (v : Nat)
    (h : p.read_word a = some (p', s, v)) :
    p' = (p.stop).1 ∧ readWordMem p.mem a = some v := by
  unfold Process.read_word at h
  rcases hr : readWordMem (p.stop).1.mem a with _ | w <;> rw [hr] at h
  · exact absurd h (by simp)
  · constructor
    · simpa using congrArg (fun o => (o.map Prod.fst).getD p') h.symm
    · have hv : v = w := by
        simpa using congrArg (fun o => (o.map fun q => q.2.2).getD v) h.symm
      rw [stop_mem] at hr
      rw [hv]
      exact hr

theorem packRest_bytes (data : List Nat) (hwfd : ∀ b ∈ data, b < 256)
    (q8 : Nat) (hq8 : q8 = 8 * (data.length / 8)) (hfin : data.length < q8 + 8) :
    ∀ fuel i word,
      q8 ≤ i → i ≤ data.length → data.length ≤ i + fuel →
      (∀ j, j < 8 → byteOf word j = if q8 + j < i then data.getD (q8 + j) 0 else 0) →
      ∀ j, j < 8 → byteOf (packRest data i word fuel) j =
        if q8 + j < data.length then data.getD (q8 + j) 0 else 0 := by
  intro fuel
  induction fuel with
  | zero =>
    intro i word hq8i hilen hfuel hword j hj
    have hi : i = data.length := by omega
    show byteOf word j = _
    rw [hword j hj, hi]
  | succ fuel ih =>
    intro i word hq8i hilen hfuel hword j hj
    by_cases h : i < data.length
    · have hstep : packRest data i word (fuel + 1) =
          packRest data (i + 1) (word ||| (data.get ⟨i, h⟩ <<< ((i % 8) * 8))) fuel := by
        show (if h : i < data.length then
            packRest data (i + 1) (word ||| (data.get ⟨i, h⟩ <<< ((i % 8) * 8))) fuel
          else word) = _
        rw [dif_pos h]
      rw [hstep]
      refine ih (i + 1) _ (by omega) (by omega) (by omega) ?_ j hj
      intro j' hj'
      have hbi : data.get ⟨i, h⟩ < 256 := hwfd _ (data.get_mem i h)
      have hmod : i % 8 = i - q8 := by omega
      rw [byteOf_lor, hmod, byteOf_byte_shift _ j' (i - q8) hbi, hword j' hj']
      by_cases hji : j' = i - q8
      · rw [if_pos hji, if_neg (by omega), Nat.zero_or, if_pos (by omega)]
        rw [show q8 + j' = i from by omega, List.getD_eq_get data 0 h]
      · rw [if_neg hji]
        by_cases hlt : q8 + j' < i
        · rw [if_pos hlt, Nat.or_zero, if_pos (by omega)]
        · rw [if_neg hlt, Nat.zero_or, if_neg (by omega)]
    · have hi : i = data.length := by omega
      have hstep : packRest data i word (fuel + 1) = word := by
        show (if h : i < data.length then
            packRest data (i + 1) (word ||| (data.get ⟨i, h⟩ <<< ((i % 8) * 8))) fuel
          else word) = _
        rw [dif_neg h]
      rw [hstep, hword j hj, hi]

theorem word2_bytes (data : List Nat) (hwfd : ∀ b ∈ data, b < 256)
    (i : Nat) (h : i < data.length) (word : Nat)
    (hword : i % 8 ≠ 0 → ∀ j, j < 8 → byteOf word j =
      if 8 * (i / 8) + j < i then data.getD (8 * (i / 8) + j) 0 else 0) :
    ∀ j, j < 8 →
      byteOf ((if i % 8 = 0 then 0 else word) ||| (data.get ⟨i, h⟩ <<< ((i % 8) * 8))) j =
        if 8 * (i / 8) + j < i + 1 then data.getD (8 * (i / 8) + j) 0 else 0 := by
  intro j hj
  have hbi : data.get ⟨i, h⟩ < 256 := hwfd _ (data.get_mem i h)
  rw [byteOf_lor, byteOf_byte_shift _ j (i % 8) hbi]
  by_cases hi0 : i % 8 = 0
  · rw [if_pos hi0, byteOf_zero, Nat.zero_or]
    by_cases hji : j = i % 8
    · rw [if_pos hji, if_pos (by omega)]
      rw [show 8 * (i / 8) + j = i from by omega, List.getD_eq_get data 0 h]
    · rw [if_neg hji, if_neg (by omega)]
  · rw [if_neg hi0]
    by_cases hji : j = i % 8
    · rw [if_pos hji, (hword hi0) j hj, if_neg (by omega), Nat.zero_or, if_pos (by omega)]
      rw [show 8 * (i / 8) + j = i from by omega, List.getD_eq_get data 0 h]
    · rw [if_neg hji, (hword hi0) j hj, Nat.or_zero]
      by_cases hlt : 8 * (i / 8) + j < i
      · rw [if_pos hlt, if_pos (by omega)]
      · rw [if_neg hlt, if_neg (by omega)]

theorem flushLoop_inv (data : List Nat) (A : Nat) (hwfd : ∀ b ∈ data, b < 256)
    (hlen8 : data.length % 8 ≠ 0) :
    ∀ fuel i word wordi p p',
      MemWF p.mem →
      data.length ≤ i + fuel →
      i ≤ 8 * (data.length / 8) →
      wordi = i / 8 →
      (i % 8 ≠ 0 → i / 8 < data.length / 8 ∧
        ∀ j, j < 8 → byteOf word j =
          if 8 * (i / 8) + j < i then data.getD (8 * (i / 8) + j) 0 else 0) →
      flushLoop data A p i word wordi fuel = some p' →
      (∀ x, 8 * (i / 8) ≤ x → x < data.length → p'.mem (A + x) = some (data.getD x 0)) ∧
      (∀ x, x < A + 8 * (i / 8) ∨ A + data.length ≤ x → p'.mem x = p.mem x) := by
  intro fuel
  induction fuel with
  | zero =>
    intro i word wordi p p' hwfm hfuel hile hwordi hword hfl
    exact absurd hfuel (by omega)
  | succ n ih =>
    intro i word wordi p p' hwfm hfuel hile hwordi hword hfl
    have hlt : i < data.length := by omega
    simp only [flushLoop] at hfl
    rw [dif_pos hlt] at hfl
    set w2 : Nat := (if i % 8 = 0 then 0 else word) ||| (data.get ⟨i, hlt⟩ <<< ((i % 8) * 8))
      with hw2def
    have hw2 : ∀ j, j < 8 → byteOf w2 j =
        if 8 * (i / 8) + j < i + 1 then data.getD (8 * (i / 8) + j) 0 else 0 := by
      intro j hj
      rw [hw2def]
      exact word2_bytes data hwfd i hlt word (fun hne => (hword hne).2) j hj
    by_cases hA : data.length % 8 ≠ 0 ∧ i / 8 = data.length / 8
    · rw [if_pos hA] at hfl
      obtain ⟨hA1, hA2⟩ := hA
      have hi : i = 8 * (data.length / 8) := by omega
      have hi0 : i % 8 = 0 := by omega
      split at hfl
      · rename_i p1 s1 source hrw
        split at hfl
        · rename_i p2 s2 hww
          have hp' : p' = p2 := (Option.some.inj hfl).symm
          obtain ⟨hp1, hrmem⟩ := read_word_char p _ p1 s1 source hrw
          have hp1mem : p1.mem = p.mem := by rw [hp1, stop_mem]
          unfold readWordMem at hrmem
          rcases hrb : readBytesMem p.mem (A + wordi * 8) 8 with _ | bs <;> rw [hrb] at hrmem
          · exact absurd hrmem (by simp)
          have hsource : fromLeBytes bs = source := by simpa using hrmem
          have hbslen : bs.length = 8 := (readBytesMem_spec p.mem 8 _ bs hrb).1
          have hbsmem : ∀ j, j < 8 → p.mem (A + wordi * 8 + j) = some (bs.getD j 0) :=
            fun j hj => (readBytesMem_spec p.mem 8 _ bs hrb).2 j hj
          have hbswf : ∀ b ∈ bs, b < 256 := readBytesMem_wf p.mem hwfm 8 _ bs hrb
          have hbsj : ∀ j, j < 8 → bs.getD j 0 < 256 := by
            intro j hj
            rw [List.getD_eq_get bs 0 (by omega)]
            exact hbswf _ (bs.get_mem j (by omega))
          have hsrcbyte : ∀ j, j < 8 → byteOf source j = bs.getD j 0 := by
            intro j hj
            rw [← hsource]
            exact byteOf_fromLeBytes bs hbswf j (by omega)
          have hd1 : 1 ≤ data.length - i := by omega
          have hd8 : data.length - i < 8 := by omega
          have hw2' : ∀ j, j < 8 → byteOf w2 j =
              if 8 * (data.length / 8) + j < i + 1
              then data.getD (8 * (data.length / 8) + j) 0 else 0 := by
            intro j hj
            rw [← hA2]
            exact hw2 j hj
          have hw3 : ∀ j, j < 8 → byteOf (packRest data (i + 1) w2 data.length) j =
              if 8 * (data.length / 8) + j < data.length
              then data.getD (8 * (data.length / 8) + j) 0 else 0 :=
            packRest_bytes data hwfd (8 * (data.length / 8)) rfl (by omega)
              data.length (i + 1) w2 (by omega) (by omega) (by omega) hw2'
          have hw4 : ∀ j, j < 8 →
              byteOf ((packRest data (i + 1) w2 data.length) |||
                (source &&& ((i64MAX <<< ((data.length - i) * 8)) % USIZE_MOD))) j =
              if j < data.length - i then data.getD (8 * (data.length / 8) + j) 0
              else bs.getD j 0 := by
            intro j hj
            rw [byteOf_lor, byteOf_land, hsrcbyte j hj,
              byteOf_flush_mask (data.length - i) j hd1 hd8 hj, hw3 j hj]
            by_cases hjd : j < data.length - i
            · rw [if_pos hjd, if_pos hjd, Nat.and_zero, Nat.or_zero, if_pos (by omega)]
            · rw [if_neg hjd, if_neg hjd, land255_self _ (hbsj j hj), if_neg (by omega),
                Nat.zero_or]
          have hmem2 := write_word_mem p1 (A + wordi * 8) _ p2 s2 hww
          rw [hp']
          constructor
          · intro x hx1 hx2
            have hxw : A + wordi * 8 ≤ A + x ∧ A + x < A + wordi * 8 + 8 := by
              constructor <;> omega
            rw [hmem2 (A + x), if_pos hxw,
              show (A + x) - (A + wordi * 8) = x - 8 * (data.length / 8) from by omega,
              hw4 (x - 8 * (data.length / 8)) (by omega), if_pos (by omega),
              show 8 * (data.length / 8) + (x - 8 * (data.length / 8)) = x from by omega]
          · intro x hx
            rw [hmem2 x]
            by_cases hxw : A + wordi * 8 ≤ x ∧ x < A + wordi * 8 + 8
            · rw [if_pos hxw]
              have hxge : A + data.length ≤ x := by
                rcases hx with h | h
                · omega
                · exact h
              rw [hw4 (x - (A + wordi * 8)) (by omega), if_neg (by omega)]
              have hbm := hbsmem (x - (A + wordi * 8)) (by omega)
              rw [show A + wordi * 8 + (x - (A + wordi * 8)) = x from by omega] at hbm
              exact hbm.symm
            · rw [if_neg hxw, hp1mem]
        · rename_i hww
          exact absurd hfl (by simp)
      · rename_i hrw
        exact absurd hfl (by simp)
    · rw [if_neg hA] at hfl
      have hidiv : i / 8 < data.length / 8 := by
        have hne : i / 8 ≠ data.length / 8 := fun hc => hA ⟨hlen8, hc⟩
        omega
      by_cases hB : (i + 1) % 8 = 0
      · rw [if_pos hB] at hfl
        have hi8 : i % 8 = 7 := by omega
        split at hfl
        · rename_i p2 s2 hww
          have hmem2 := write_word_mem p (A + wordi * 8) w2 p2 s2 hww
          have hwf2 : MemWF p2.mem := write_word_wf p (A + wordi * 8) w2 p2 s2 hwfm hww
          obtain ⟨ih1, ih2⟩ := ih (i + 1) w2 (wordi + 1) p2 p' hwf2 (by omega) (by omega)
            (by omega) (fun hc => absurd hB hc) hfl
          constructor
          · intro x hx1 hx2
            by_cases hxhi : 8 * ((i + 1) / 8) ≤ x
            · exact ih1 x hxhi hx2
            · rw [ih2 (A + x) (Or.inl (by omega))]
              have hxw : A + wordi * 8 ≤ A + x ∧ A + x < A + wordi * 8 + 8 := by
                constructor <;> omega
              rw [hmem2 (A + x), if_pos hxw,
                show (A + x) - (A + wordi * 8) = x - 8 * (i / 8) from by omega,
                hw2 (x - 8 * (i / 8)) (by omega), if_pos (by omega),
                show 8 * (i / 8) + (x - 8 * (i / 8)) = x from by omega]
          · intro x hx
            have hside : x < A + 8 * ((i + 1) / 8) ∨ A + data.length ≤ x := by
              rcases hx with h | h
              · exact Or.inl (by omega)
              · exact Or.inr h
            rw [ih2 x hside]
            by_cases hxw : A + wordi * 8 ≤ x ∧ x < A + wordi * 8 + 8
            · exfalso
              rcases hx with h | h <;> omega
            · rw [hmem2 x, if_neg hxw]
        · rename_i hww
          exact absurd hfl (by simp)
      · rw [if_neg hB] at hfl
        have hdiv1 : (i + 1) / 8 = i / 8 := by omega
        have hword' : (i + 1) % 8 ≠ 0 → (i + 1) / 8 < data.length / 8 ∧
            ∀ j, j < 8 → byteOf w2 j =
              if 8 * ((i + 1) / 8) + j < i + 1
              then data.getD (8 * ((i + 1) / 8) + j) 0 else 0 := by
          intro _
          refine ⟨by omega, ?_⟩
          intro j hj
          rw [hdiv1]
          exact hw2 j hj
        obtain ⟨ih1, ih2⟩ := ih (i + 1) w2 wordi p p' hwfm (by omega) (by omega)
          (by omega) hword' hfl
        constructor
        · intro x hx1 hx2
          exact ih1 x (by omega) hx2
        · intro x hx
          refine ih2 x ?_
          rcases hx with h | h
          · exact Or.inl (by omega)
          · exact Or.inr h

/-- Claim C1: flushing a pending buffer whose length is not a multiple of
the word size writes the full word chunks little-endian and merges the
trailing partial chunk into the existing word at the final word address
(read, mask with `i64::MAX << (written * 8)` — bit-identical to the
all-ones mask for 1–7 written bytes — OR, write back).  Consequently the
`len(B)` bytes at the start address read back exactly as `B`, and every
byte outside the written span — in particular the bytes of the final
destination word beyond `len(B)` — is unchanged from its pre-flush value. -/
theorem flush_merge_preserves_tail (p p' : Process) (w w' : ProcessWriter)
    (hwfd : ∀ b ∈ w.data, b < 256) (hwfm : MemWF p.mem)
    (hlen : w.data.length % 8 ≠ 0)
    (hfl : ProcessWriter.flush p w = some (p', w')) :
    (∀ j, j < w.data.length → p'.mem (w.address + j) = some (w.data.getD j 0)) ∧
    (∀ x, x < w.address ∨ w.address + w.data.length ≤ x → p'.mem x = p.mem x) := by
  unfold ProcessWriter.flush at hfl
  rcases hl : flushLoop w.data w.address p 0 0 0 w.data.length with _ | p1 <;> rw [hl] at hfl
  · exact absurd hfl (by simp)
  · have hp' : p' = p1 := by
      simpa using congrArg (fun o => (o.map Prod.fst).getD p') hfl.symm
    obtain ⟨h1, h2⟩ := flushLoop_inv w.data w.address hwfd hlen w.data.length 0 0 0 p p1
      hwfm (by omega) (by omega) (by omega) (fun hc => absurd rfl hc) hl
    constructor
    · intro j hj
      rw [hp']
      exact h1 j (by omega) hj
    · intro x hx
      rw [hp']
      refine h2 x ?_
      rcases hx with h | h
      · exact Or.inl (by omega)
      · exact Or.inr h

/-- Witness for C1: flushing `[0xAA, 0xBB, 0xCC]` at address `0` over
memory whose mapped bytes are all `0x11`: the three bytes land, byte 5 of
the destination word still holds its pre-flush `0x11`, and memory outside
the word is untouched. -/
theorem flush_merge_preserves_tail_witness :
    (ProcessWriter.flush (Process.new (fun a => if a < 16 then some 17 else none))
      { address := 0, data := [170, 187, 204], advance := true }).isSome = true ∧
    (∀ p' w',
      ProcessWriter.flush (Process.new (fun a => if a < 16 then some 17 else none))
        { address := 0, data := [170, 187, 204], advance := true } = some (p', w') →
      p'.mem 1 = some 187 ∧ p'.mem 5 = some 17 ∧ p'.mem 20 = none) := by
  constructor
  · rfl
  · intro p' w' h
    have hwfm : MemWF (fun a => if a < 16 then some (17 : Nat) else none) := by
      intro a v hv
      by_cases h16 : a < 16 <;> simp [h16] at hv <;> omega
    have hc := flush_merge_preserves_tail
      (Process.new (fun a => if a < 16 then some 17 else none)) p'
      { address := 0, data := [170, 187, 204], advance := true } w'
      (by decide) hwfm (by decide) h
    refine ⟨?_, ?_, ?_⟩
    · have h1 := hc.1 1 (by decide)
      simpa using h1
    · have h5 := hc.2 5 (Or.inr (by decide))
      rw [h5]
      rfl
    · have h20 := hc.2 20 (Or.inr (by decide))
      rw [h20]
      rfl
